import Mathlib

/-!
Verification development for the qio-cli schedule builder and auth-file
discovery.  The definitions below are a shallow embedding of
`src/qiocli/utils.py` (`timestamp_to_half_hour_idx`, `form_schedule`),
`src/qiocli/api_client.py` (`get_auth`, `walk_up_to_home_dir`) and
`src/qiocli/queue_api_client.py` (`get_api_session`).

Conventions of the embedding:
* Python `datetime.datetime` values (as produced by
  `datetime.datetime.strptime(s, "%Y-%m-%dT%H:%M:%S%z")`) become the
  `PyDatetime` structure; only the fields the code reads (`hour`, `minute`,
  `weekday()`) plus the remaining parsed components are kept.
* Raised exceptions (`KeyError` on a missing dict key, `ValueError` from
  `strptime`) become `Except PyError`.
* A calendar item `x` with keys `status`, `summary`, `start.dateTime`,
  `end.dateTime` becomes the `RawEvent` structure with `Option String`
  fields; the two-level access `x['start']['dateTime']` is flattened to one
  optional field, since a missing key at either level raises `KeyError`.
-/

/-- Errors raised by the Python code while building a schedule:
`KeyError key` for a missing dict key, `ValueError s` for a string `s`
rejected by `strptime`. -/
inductive PyError where
  | keyError (key : String)
  | valueError (s : String)
deriving DecidableEq

/-- The components of a parsed `datetime.datetime` with a fixed UTC offset
(stored in seconds).  Mirrors the aware datetime produced by
`datetime.strptime(s, "%Y-%m-%dT%H:%M:%S%z")`. -/
structure PyDatetime where
  year : Nat
  month : Nat
  day : Nat
  hour : Nat
  minute : Nat
  second : Nat
  tzOffsetSeconds : Int
deriving DecidableEq

/-- Numeric value of an ASCII digit character. -/
def digitVal (c : Char) : Nat := c.toNat - 48

/-- Parse exactly four digits (the `%Y` directive of CPython `_strptime`,
whose regex fragment is `\d\d\d\d`). -/
def take4 : List Char → Option (Nat × List Char)
  | a :: b :: c :: d :: rest =>
    if a.isDigit ∧ b.isDigit ∧ c.isDigit ∧ d.isDigit then
      some (1000 * digitVal a + 100 * digitVal b + 10 * digitVal c + digitVal d, rest)
    else none
  | _ => none

/-- Parse a one- or two-digit field the way CPython `_strptime`'s ordered
regex alternations do: a two-digit match satisfying `ok2` is preferred,
otherwise a single digit satisfying `ok1`.  (With this format every numeric
field is followed by a non-digit separator, so no further backtracking can
occur.) -/
def take2or1 (ok2 ok1 : Nat → Bool) : List Char → Option (Nat × List Char)
  | a :: b :: rest =>
    if a.isDigit ∧ b.isDigit ∧ ok2 (10 * digitVal a + digitVal b) then
      some (10 * digitVal a + digitVal b, rest)
    else if a.isDigit ∧ ok1 (digitVal a) then
      some (digitVal a, b :: rest)
    else none
  | [a] => if a.isDigit ∧ ok1 (digitVal a) then some (digitVal a, []) else none
  | [] => none

/-- Consume one expected literal character. -/
def expectChar (c : Char) : List Char → Option (List Char)
  | x :: rest => if x = c then some rest else none
  | [] => none

/-- Consume the literal `T` separator.  CPython compiles the strptime regex
with `re.IGNORECASE`, so a lowercase `t` is accepted as well. -/
def expectT : List Char → Option (List Char)
  | x :: rest => if x = 'T' ∨ x = 't' then some rest else none
  | [] => none

/-- Seconds part of a `%z` offset: either nothing, or an optional colon
followed by two digits `[0-5]\d`, optionally followed by a fraction
`\.\d{1,6}` (regex fragment `(:?[0-5]\d(\.\d{1,6})?)?`).  The whole input
must be consumed. -/
def parseTZSec (l : List Char) : Option Nat :=
  match l with
  | [] => some 0
  | _ =>
    let l1 := match l with
      | ':' :: r => r
      | _ => l
    match l1 with
    | s1 :: s2 :: rest =>
      if s1.isDigit ∧ digitVal s1 ≤ 5 ∧ s2.isDigit then
        match rest with
        | [] => some (10 * digitVal s1 + digitVal s2)
        | '.' :: frac =>
          if frac ≠ [] ∧ frac.length ≤ 6 ∧ frac.all Char.isDigit then
            some (10 * digitVal s1 + digitVal s2)
          else none
        | _ => none
      else none
    | _ => none

/-- Hours-and-minutes body of a `%z` offset after the sign: `\d\d`, an
optional colon, then `[0-5]\d`, then the optional seconds part.  Returns the
absolute offset in seconds. -/
def parseTZBody : List Char → Option Nat
  | h1 :: h2 :: rest =>
    if h1.isDigit ∧ h2.isDigit then
      let rest1 := match rest with
        | ':' :: r => r
        | _ => rest
      match rest1 with
      | m1 :: m2 :: rest2 =>
        if m1.isDigit ∧ digitVal m1 ≤ 5 ∧ m2.isDigit then
          match parseTZSec rest2 with
          | none => none
          | some ss =>
            some ((10 * digitVal h1 + digitVal h2) * 3600
              + (10 * digitVal m1 + digitVal m2) * 60 + ss)
        else none
      | _ => none
    else none
  | _ => none

/-- The `%z` directive: `[+-]\d\d:?[0-5]\d(:?[0-5]\d(\.\d{1,6})?)?` or the
case-sensitive literal `Z`.  The string must end here (`strptime` raises
`ValueError` on unconverted trailing data).  A resulting offset of 24 hours
or more is rejected, as `datetime.timezone` requires an offset strictly
between -24h and +24h. -/
def parseTZ : List Char → Option Int
  | ['Z'] => some 0
  | c :: rest =>
    if c = '+' ∨ c = '-' then
      match parseTZBody rest with
      | none => none
      | some secs =>
        if secs < 86400 then
          some (if c = '-' then -(secs : Int) else (secs : Int))
        else none
    else none
  | [] => none

/-- Python's `calendar.isleap` / `datetime` leap-year rule (proleptic
Gregorian). -/
def isLeapYear (y : Nat) : Bool :=
  y % 4 == 0 && (y % 100 != 0 || y % 400 == 0)

/-- Days in a month of the proleptic Gregorian calendar, as validated by the
`datetime.datetime` constructor. -/
def daysInMonth (y m : Nat) : Nat :=
  if m = 2 then (if isLeapYear y then 29 else 28)
  else if m = 4 ∨ m = 6 ∨ m = 9 ∨ m = 11 then 30 else 31

/-- Validation performed by the `datetime.datetime(...)` constructor that
`strptime` ultimately calls: every component must be in range (year within
`MINYEAR..MAXYEAR`, a day valid for its month, hour below 24, minute and
second below 60). -/
def mkValidDatetime (y mo d h mi s : Nat) (off : Int) : Option PyDatetime :=
  if 1 ≤ y ∧ y ≤ 9999 ∧ 1 ≤ mo ∧ mo ≤ 12 ∧ 1 ≤ d ∧ d ≤ daysInMonth y mo
      ∧ h ≤ 23 ∧ mi ≤ 59 ∧ s ≤ 59 then
    some ⟨y, mo, d, h, mi, s, off⟩
  else none

/-- `datetime.datetime.strptime(s, "%Y-%m-%dT%H:%M:%S%z")`: four-digit year,
one-or-two-digit month/day/hour/minute/second with the range constraints of
CPython's `_strptime` regex, literal separators, a mandatory UTC offset, and
the constructor's range validation.  Returns `none` where Python raises
`ValueError`. -/
def strptimeISO (s : String) : Option PyDatetime :=
  match take4 s.data with
  | none => none
  | some (y, r1) =>
  match expectChar '-' r1 with
  | none => none
  | some r2 =>
  match take2or1 (fun v => decide (1 ≤ v ∧ v ≤ 12)) (fun v => decide (1 ≤ v)) r2 with
  | none => none
  | some (mo, r3) =>
  match expectChar '-' r3 with
  | none => none
  | some r4 =>
  match take2or1 (fun v => decide (1 ≤ v ∧ v ≤ 31)) (fun v => decide (1 ≤ v)) r4 with
  | none => none
  | some (d, r5) =>
  match expectT r5 with
  | none => none
  | some r6 =>
  match take2or1 (fun v => decide (v ≤ 23)) (fun _ => true) r6 with
  | none => none
  | some (h, r7) =>
  match expectChar ':' r7 with
  | none => none
  | some r8 =>
  match take2or1 (fun v => decide (v ≤ 59)) (fun _ => true) r8 with
  | none => none
  | some (mi, r9) =>
  match expectChar ':' r9 with
  | none => none
  | some r10 =>
  match take2or1 (fun v => decide (v ≤ 59)) (fun _ => true) r10 with
  | none => none
  | some (sec, r11) =>
  match parseTZ r11 with
  | none => none
  | some off => mkValidDatetime y mo d h mi sec off

/-- Days in the months strictly before month `m` of year `y`. -/
def daysBeforeMonth (y m : Nat) : Nat :=
  ((List.range (m - 1)).map (fun k => daysInMonth y (k + 1))).sum

/-- Python's `date.toordinal()`: day number of the date in the proleptic
Gregorian calendar, with January 1 of year 1 being day 1. -/
def toOrdinal (dt : PyDatetime) : Nat :=
  365 * (dt.year - 1) + (dt.year - 1) / 4 - (dt.year - 1) / 100
    + (dt.year - 1) / 400 + daysBeforeMonth dt.year dt.month + dt.day

/-- Python's `datetime.weekday()`: Monday = 0 .. Sunday = 6.  January 1 of
year 1 (ordinal 1) is a Monday. -/
def pyWeekday (dt : PyDatetime) : Nat := (toOrdinal dt + 6) % 7

/-- `timestamp_to_half_hour_idx` from `src/qiocli/utils.py`: break a
timestamp down to its half-hour slot index. -/
def timestamp_to_half_hour_idx (timestamp : PyDatetime) : Nat :=
  timestamp.hour * 2 + (if timestamp.minute < 30 then 0 else 1)

/-- One raw calendar item as consumed by `form_schedule`: the dict keys the
code reads, each optional so that a missing key can be modelled as a
`KeyError`.  `startDateTime`/`endDateTime` stand for `x['start']['dateTime']`
and `x['end']['dateTime']`. -/
structure RawEvent where
  summary : Option String
  status : Option String
  startDateTime : Option String
  endDateTime : Option String
deriving DecidableEq

/-- A retained, parsed office-hours session (the dict built by the list
comprehension in `form_schedule`). -/
structure OHSession where
  summary : String
  start : PyDatetime
  «end» : PyDatetime
deriving DecidableEq

/-- Substring test on character lists: Python's `needle in haystack`. -/
def isPrefixB : List Char → List Char → Bool
  | [], _ => true
  | _ :: _, [] => false
  | a :: as, b :: bs => a = b && isPrefixB as bs

/-- Python's `sub in s` for strings, over the character lists. -/
def containsSub (needle : List Char) : List Char → Bool
  | [] => isPrefixB needle []
  | c :: rest => isPrefixB needle (c :: rest) || containsSub needle rest

/-- The marker phrase searched for in event summaries. -/
def officeHours : String := "Office Hours"

/-- The filter predicate of `form_schedule`:
`x['status'] != 'cancelled' and 'Office Hours' in x['summary']`, with
Python's left-to-right short-circuit evaluation and `KeyError` on a missing
key. -/
def keepEvent (x : RawEvent) : Except PyError Bool :=
  match x.status with
  | none => .error (.keyError "status")
  | some st =>
    if st = "cancelled" then .ok false
    else
      match x.summary with
      | none => .error (.keyError "summary")
      | some sm => .ok (containsSub officeHours.data sm.data)

/-- The list-comprehension body of `form_schedule`: read `summary`, parse
`start.dateTime` and `end.dateTime` with `strptime`; a missing key is a
`KeyError`, a rejected string a `ValueError`. -/
def parseEvent (x : RawEvent) : Except PyError OHSession :=
  match x.summary with
  | none => .error (.keyError "summary")
  | some sm =>
  match x.startDateTime with
  | none => .error (.keyError "dateTime")
  | some sdt =>
  match strptimeISO sdt with
  | none => .error (.valueError sdt)
  | some sd =>
  match x.endDateTime with
  | none => .error (.keyError "dateTime")
  | some edt =>
  match strptimeISO edt with
  | none => .error (.valueError edt)
  | some ed => .ok ⟨sm, sd, ed⟩

/-- Effectful filter, evaluated left to right with the first raised error
propagated: models forcing Python's `list(filter(pred, items))`. -/
def filterE (p : α → Except ε Bool) : List α → Except ε (List α)
  | [] => .ok []
  | x :: xs =>
    match p x with
    | .error e => .error e
    | .ok b =>
      match filterE p xs with
      | .error e => .error e
      | .ok rest => .ok (if b then x :: rest else rest)

/-- Effectful map, evaluated left to right with the first raised error
propagated: models Python's list comprehension. -/
def mapE (f : α → Except ε β) : List α → Except ε (List β)
  | [] => .ok []
  | x :: xs =>
    match f x with
    | .error e => .error e
    | .ok y =>
      match mapE f xs with
      | .error e => .error e
      | .ok ys => .ok (y :: ys)

/-- The filter-then-parse front half of `form_schedule`: the retained,
parsed office-hours sessions (or the first error raised). -/
def ohSessions (items : List RawEvent) : Except PyError (List OHSession) :=
  match filterE keepEvent items with
  | .error e => .error e
  | .ok kept => mapE parseEvent kept

/-- Map with the element index, starting at `n`. -/
def mapIdxGo (f : Nat → α → α) : Nat → List α → List α
  | _, [] => []
  | n, a :: as => f n a :: mapIdxGo f (n + 1) as

/-- Output day index of a session:
`day = (event['start'].weekday() + 1) % 7`. -/
def dayIdx (ev : OHSession) : Nat := (pyWeekday ev.start + 1) % 7

/-- One cell of the slice assignment
`schedule[day][start:end] = ["o" for i in range(end - start)]`: cell `i` of
the day row becomes `"o"` when `start ≤ i < end`, else keeps its value.
(Both indices lie in `[0, 47]`, so the Python slice replaces exactly the
cells of that half-open range; an empty range changes nothing.) -/
def markCell (ev : OHSession) (i : Nat) (c : Char) : Char :=
  if timestamp_to_half_hour_idx ev.start ≤ i ∧ i < timestamp_to_half_hour_idx ev.«end» then 'o'
  else c

/-- One iteration of the marking loop of `form_schedule`. -/
def applyEvent (sched : List (List Char)) (ev : OHSession) : List (List Char) :=
  mapIdxGo (fun d row => if d = dayIdx ev then mapIdxGo (markCell ev) 0 row else row) 0 sched

/-- One all-closed day row: `["c" for j in range(48)]`. -/
def closedRow : List Char := List.replicate 48 'c'

/-- `schedule = [["c" for j in range(48)] for i in range(7)]`. -/
def initSchedule : List (List Char) := List.replicate 7 closedRow

/-- The marking loop plus the final `"".join(x)` serialization. -/
def render (evs : List OHSession) : List String :=
  (evs.foldl applyEvent initSchedule).map (fun row => String.mk row)

/-- `form_schedule` from `src/qiocli/utils.py`, applied to `events['items']`:
filter, parse, mark the 7x48 grid, join each row. -/
def form_schedule (items : List RawEvent) : Except PyError (List String) :=
  match ohSessions items with
  | .error e => .error e
  | .ok evs => .ok (render evs)

/-- Character of an output schedule at day `d`, slot `i` (with an arbitrary
default off the grid). -/
def outChar (out : List String) (d i : Nat) : Char :=
  ((out.getD d "").data).getD i '?'

/-- Character of an in-progress grid at day `d`, slot `i`. -/
def schedChar (sched : List (List Char)) (d i : Nat) : Char :=
  (sched.getD d []).getD i '?'

/-- Session `ev` covers slot `i` of output day `d`. -/
def coversP (ev : OHSession) (d i : Nat) : Prop :=
  dayIdx ev = d ∧ timestamp_to_half_hour_idx ev.start ≤ i
    ∧ i < timestamp_to_half_hour_idx ev.«end»

instance (ev : OHSession) (d i : Nat) : Decidable (coversP ev d i) := by
  unfold coversP; infer_instance

/-!
Model of the auth-file discovery in `src/qiocli/api_client.py` (`get_auth`,
`walk_up_to_home_dir`) and `src/qiocli/queue_api_client.py`
(`get_api_session`).  Directories are lists of path components from the
filesystem root; the claim concerns the bare-filename case with the working
directory inside the home directory, so the working directory is written
`home ++ rest` (which also discharges the `expanduser('~') in curdir`
guard), and the `os.path.dirname(filename)` precheck is vacuous.
`AuthFileNotFound`/`SessionFileNotFound` are modelled as `none`.
-/

/-- A Python path value: either a bare filename (no path information) or an
absolute path (directory components plus filename). -/
inductive PyPath where
  | rel (name : String)
  | abs (dir : List String) (name : String)
deriving DecidableEq

/-- `os.path.join(d, p)` for an absolute directory `d`: if `p` is already
absolute, the result is just `p` (the first argument is discarded). -/
def pyJoin (d : List String) : PyPath → PyPath
  | .rel n => .abs d n
  | .abs ds n => .abs ds n

/-- An abstract filesystem: the regular files, each an absolute directory,
a filename and the file's contents. -/
def Fs : Type := List (List String × String × String)

/-- `os.path.isfile` plus `open(...).read()`: contents of the regular file
at `p`, if any. -/
def fsIsFile : Fs → PyPath → Option String
  | [], _ => none
  | (d, n, contents) :: rest, p =>
    if p = PyPath.abs d n then some contents else fsIsFile rest p

/-- Python's `str.strip()`: drop leading and trailing whitespace. -/
def pyStrip (s : String) : String :=
  String.mk (((s.data.dropWhile Char.isWhitespace).reverse.dropWhile Char.isWhitespace).reverse)

/-- Helper for `walk_up_to_home_dir`, recursing over the reversed relative
part: `walkUpRev home (rest.reverse)` yields `home ++ rest`, then
`home ++ rest.dropLast` (its `os.path.dirname`), ..., down to `home`. -/
def walkUpRev (home : List String) : List String → List (List String)
  | [] => [home]
  | x :: xs => (home ++ (x :: xs).reverse) :: walkUpRev home xs

/-- `walk_up_to_home_dir()` for a working directory `home ++ rest`: the
working directory, then each `os.path.dirname` ancestor, ending with the
home directory. -/
def walk_up_to_home_dir (home rest : List String) : List (List String) :=
  walkUpRev home rest.reverse

/-- The search loop of `get_auth` in `src/qiocli/api_client.py`.  Note the
loop body executes `filename = os.path.join(dirname, filename)`, rebinding
`filename` to the joined (absolute) path, which is then carried into the
following iterations. -/
def get_auth_loop (fs : Fs) : List (List String) → PyPath → Option String
  | [], _ => none
  | d :: ds, filename =>
    let filename' := pyJoin d filename
    match fsIsFile fs filename' with
    | some contents => some (pyStrip contents)
    | none => get_auth_loop fs ds filename'

/-- `get_auth(filename)` from `src/qiocli/api_client.py`, for a bare
`filename` and working directory `home ++ rest`. -/
def get_auth (fs : Fs) (home rest : List String) (filename : String) : Option String :=
  get_auth_loop fs (walk_up_to_home_dir home rest) (PyPath.rel filename)

/-- The search loop of `get_api_session` in
`src/qiocli/queue_api_client.py`: here the joined path is a fresh local
`filename` each iteration, so every directory of the walk is probed with the
bare `session_filename`. -/
def get_api_session_loop (fs : Fs) (session_filename : String) : List (List String) → Option String
  | [] => none
  | d :: ds =>
    match fsIsFile fs (pyJoin d (PyPath.rel session_filename)) with
    | some contents => some (pyStrip contents)
    | none => get_api_session_loop fs session_filename ds

/-- `get_api_session(session_filename)` from
`src/qiocli/queue_api_client.py`, for a bare `session_filename` and working
directory `home ++ rest`. -/
def get_api_session (fs : Fs) (home rest : List String) (session_filename : String) :
    Option String :=
  get_api_session_loop fs session_filename (walk_up_to_home_dir home rest)

/-- The structural invariant of the schedule grid: 7 rows of 48 cells. -/
def goodShape (sched : List (List Char)) : Prop :=
  sched.length = 7 ∧ ∀ row ∈ sched, row.length = 48

/-! Concrete test vectors used by the closed theorems below. -/

/-- The concrete event of the spec scenario: a confirmed office-hours
session on Sunday 2024-01-07, 14:00-15:30 UTC. -/
def cs101Raw : RawEvent :=
  ⟨some "CS101 Office Hours", some "confirmed",
    some "2024-01-07T14:00:00+00:00", some "2024-01-07T15:30:00+00:00"⟩

/-- Parsed start timestamp of `cs101Raw`. -/
def cs101Start : PyDatetime := ⟨2024, 1, 7, 14, 0, 0, 0⟩

/-- Parsed end timestamp of `cs101Raw`. -/
def cs101End : PyDatetime := ⟨2024, 1, 7, 15, 30, 0, 0⟩

/-- The retained, parsed session of `cs101Raw`. -/
def cs101Session : OHSession := ⟨"CS101 Office Hours", cs101Start, cs101End⟩

/-- A fully closed day string of 48 `'c'` characters. -/
def closedStr : String := String.mk closedRow

/-- The fully closed week: 7 strings of 48 `'c'`. -/
def closedWeek : List String := List.replicate 7 closedStr

/-- Day string with slots 28-30 open (the `cs101Raw` scenario). -/
def cs101Day0 : String :=
  String.mk (List.replicate 28 'c' ++ List.replicate 3 'o' ++ List.replicate 17 'c')

/-- Expected schedule for the single event `cs101Raw`. -/
def cs101Out : List String :=
  [cs101Day0, closedStr, closedStr, closedStr, closedStr, closedStr, closedStr]

/-- A second qualifying event on Monday 2024-01-08, 09:00-10:00 UTC. -/
def eecsRaw : RawEvent :=
  ⟨some "EECS 485 Office Hours", some "confirmed",
    some "2024-01-08T09:00:00+00:00", some "2024-01-08T10:00:00+00:00"⟩

/-- Day string with slots 18-19 open (the `eecsRaw` scenario). -/
def eecsDay1 : String :=
  String.mk (List.replicate 18 'c' ++ List.replicate 2 'o' ++ List.replicate 28 'c')

/-- Expected schedule when both `cs101Raw` and `eecsRaw` are present. -/
def twoOut : List String :=
  [cs101Day0, eecsDay1, closedStr, closedStr, closedStr, closedStr, closedStr]

/-- A cancelled event otherwise identical to `cs101Raw`. -/
def cancelledRaw : RawEvent :=
  ⟨some "CS101 Office Hours", some "cancelled",
    some "2024-01-07T14:00:00+00:00", some "2024-01-07T15:30:00+00:00"⟩

/-- A cancelled event carrying no summary key at all. -/
def cancelledNoSummary : RawEvent := ⟨none, some "cancelled", none, none⟩

/-- A qualifying event whose start timestamp cannot be parsed. -/
def badRaw : RawEvent :=
  ⟨some "Office Hours", some "confirmed", some "garbage", some "garbage"⟩

/-- A filesystem whose only auth file lives in the home directory, one
level above the working directory `home/user/project`. -/
def demoFsAncestor : Fs := [(["home", "user"], ".gcalkey", " top-secret-key\n")]

/-- A filesystem whose only auth file lives in the working directory
itself. -/
def demoFsCwd : Fs := [(["home", "user", "project"], ".gcalkey", "cwd-key")]

/-! Helper lemmas about the list combinators of the embedding. -/

lemma mapIdxGo_length (f : Nat → α → α) (l : List α) : ∀ n, (mapIdxGo f n l).length = l.length := by
  induction l with
  | nil => intro n; rfl
  | cons a as ih => intro n; simp [mapIdxGo, ih]

lemma getD_mapIdxGo (f : Nat → α → α) :
    ∀ (l : List α) (n j : Nat) (d : α), j < l.length →
      (mapIdxGo f n l).getD j d = f (n + j) (l.getD j d) := by
  intro l
  induction l with
  | nil => intro n j d h; simp at h
  | cons a as ih =>
    intro n j d h
    cases j with
    | zero => simp [mapIdxGo]
    | succ j =>
      have hj : j < as.length := by simpa using h
      simp only [mapIdxGo, List.getD_cons_succ]
      rw [ih (n + 1) j d hj]
      congr 1
      omega

lemma mapIdxGo_congr {f g : Nat → α → α} (h : ∀ i a, f i a = g i a) :
    ∀ (l : List α) (n : Nat), mapIdxGo f n l = mapIdxGo g n l := by
  intro l
  induction l with
  | nil => intro n; rfl
  | cons a as ih => intro n; simp [mapIdxGo, h, ih]

lemma mapIdxGo_comp (f g : Nat → α → α) :
    ∀ (l : List α) (n : Nat), mapIdxGo f n (mapIdxGo g n l) = mapIdxGo (fun i a => f i (g i a)) n l := by
  intro l
  induction l with
  | nil => intro n; rfl
  | cons a as ih => intro n; simp [mapIdxGo, ih]

lemma mapIdxGo_id {f : Nat → α → α} (h : ∀ i a, f i a = a) :
    ∀ (l : List α) (n : Nat), mapIdxGo f n l = l := by
  intro l
  induction l with
  | nil => intro n; rfl
  | cons a as ih => intro n; simp [mapIdxGo, h, ih]

lemma mem_mapIdxGo {f : Nat → α → α} :
    ∀ {l : List α} {n : Nat} {b : α}, b ∈ mapIdxGo f n l → ∃ i a, a ∈ l ∧ b = f i a := by
  intro l
  induction l with
  | nil => intro n b h; simp [mapIdxGo] at h
  | cons x xs ih =>
    intro n b h
    simp only [mapIdxGo, List.mem_cons] at h
    rcases h with h | h
    · exact ⟨n, x, List.mem_cons_self x xs, h⟩
    · obtain ⟨i, a, ha, hb⟩ := ih h
      exact ⟨i, a, List.mem_cons_of_mem x ha, hb⟩

lemma getD_mem' : ∀ (l : List α) (i : Nat) (d : α), i < l.length → l.getD i d ∈ l := by
  intro l
  induction l with
  | nil => intro i d h; simp at h
  | cons a as ih =>
    intro i d h
    cases i with
    | zero => simp
    | succ i =>
      have : i < as.length := by simpa using h
      simpa using Or.inr (ih i d this)

lemma getD_replicate_lt (a d : α) : ∀ (n i : Nat), i < n → (List.replicate n a).getD i d = a := by
  intro n
  induction n with
  | zero => intro i h; omega
  | succ n ih =>
    intro i h
    cases i with
    | zero => rfl
    | succ i => simpa [List.replicate] using ih i (by omega)

/-! Shape and character lemmas for the marking loop. -/

lemma applyEvent_shape {s : List (List Char)} (hs : goodShape s) (ev : OHSession) :
    goodShape (applyEvent s ev) := by
  constructor
  · rw [applyEvent, mapIdxGo_length]; exact hs.1
  · intro row' hrow'
    obtain ⟨i, row, hrow, hb⟩ := mem_mapIdxGo hrow'
    subst hb
    by_cases h : i = dayIdx ev <;>
      simp [h, mapIdxGo_length, hs.2 row hrow]

lemma applyEvent_char {s : List (List Char)} (hs : goodShape s) (ev : OHSession)
    {d i : Nat} (hd : d < 7) (hi : i < 48) :
    schedChar (applyEvent s ev) d i = if coversP ev d i then 'o' else schedChar s d i := by
  have hd' : d < s.length := by rw [hs.1]; exact hd
  have hrow : (s.getD d []).length = 48 := hs.2 _ (getD_mem' s d [] hd')
  have hi' : i < (s.getD d []).length := by rw [hrow]; exact hi
  unfold applyEvent schedChar
  rw [getD_mapIdxGo _ s 0 d [] hd']
  simp only [Nat.zero_add]
  by_cases hday : d = dayIdx ev
  · rw [if_pos hday, getD_mapIdxGo _ _ 0 i '?' hi']
    simp only [Nat.zero_add, markCell]
    by_cases hc : timestamp_to_half_hour_idx ev.start ≤ i ∧ i < timestamp_to_half_hour_idx ev.«end»
    · rw [if_pos hc, if_pos ⟨hday.symm, hc⟩]
    · rw [if_neg hc, if_neg (fun h : coversP ev d i => hc h.2)]
  · rw [if_neg hday, if_neg (fun h : coversP ev d i => hday h.1.symm)]

lemma foldl_applyEvent_shape :
    ∀ (evs : List OHSession) {s : List (List Char)}, goodShape s →
      goodShape (List.foldl applyEvent s evs) := by
  intro evs
  induction evs with
  | nil => intro s hs; exact hs
  | cons e es ih => intro s hs; exact ih (applyEvent_shape hs e)

lemma foldl_applyEvent_char :
    ∀ (evs : List OHSession) {s : List (List Char)}, goodShape s →
      ∀ {d i : Nat}, d < 7 → i < 48 →
        schedChar (List.foldl applyEvent s evs) d i
          = if (∃ ev ∈ evs, coversP ev d i) then 'o' else schedChar s d i := by
  intro evs
  induction evs with
  | nil => intro s hs d i hd hi; simp
  | cons e es ih =>
    intro s hs d i hd hi
    simp only [List.foldl_cons]
    rw [ih (applyEvent_shape hs e) hd hi, applyEvent_char hs e hd hi]
    have hiff : (∃ ev ∈ e :: es, coversP ev d i)
        ↔ (coversP e d i ∨ ∃ ev ∈ es, coversP ev d i) := by
      simp [List.mem_cons, or_and_right, exists_or]
    by_cases h1 : ∃ ev ∈ es, coversP ev d i
    · rw [if_pos h1, if_pos (hiff.mpr (Or.inr h1))]
    · by_cases h2 : coversP e d i
      · rw [if_neg h1, if_pos h2, if_pos (hiff.mpr (Or.inl h2))]
      · rw [if_neg h1, if_neg h2, if_neg (fun h => by
          rcases hiff.mp h with h | h
          · exact h2 h
          · exact h1 h)]

lemma initSchedule_shape : goodShape initSchedule := by
  constructor
  · simp [initSchedule]
  · intro row hrow
    have := List.eq_of_mem_replicate hrow
    rw [this]
    simp [closedRow]

lemma schedChar_init {d i : Nat} (hd : d < 7) (hi : i < 48) :
    schedChar initSchedule d i = 'c' := by
  unfold schedChar initSchedule
  rw [getD_replicate_lt _ _ _ _ hd]
  exact getD_replicate_lt _ _ _ _ hi

lemma data_getD_map_mk :
    ∀ (l : List (List Char)) (d' : Nat), d' < l.length →
      ((l.map (fun row => String.mk row)).getD d' "").data = l.getD d' [] := by
  intro l
  induction l with
  | nil => intro d' h; simp at h
  | cons r rs ih =>
    intro d' h
    cases d' with
    | zero => rfl
    | succ d' =>
      simp only [List.map_cons, List.getD_cons_succ]
      exact ih d' (by simpa using h)

lemma outChar_render (evs : List OHSession) {d i : Nat} (hd : d < 7) (hi : i < 48) :
    outChar (render evs) d i = if (∃ ev ∈ evs, coversP ev d i) then 'o' else 'c' := by
  have hshape := foldl_applyEvent_shape evs initSchedule_shape
  unfold outChar render
  rw [data_getD_map_mk _ d (by rw [hshape.1]; exact hd)]
  have : ((List.foldl applyEvent initSchedule evs).getD d []).getD i '?'
      = schedChar (List.foldl applyEvent initSchedule evs) d i := rfl
  rw [this, foldl_applyEvent_char evs initSchedule_shape hd hi, schedChar_init hd hi]

/-! Lemmas about the effectful filter and map. -/

lemma filterE_sub {p : α → Except ε Bool} :
    ∀ {l k : List α}, filterE p l = .ok k → ∀ x ∈ k, x ∈ l := by
  intro l
  induction l with
  | nil =>
    intro k h x hx
    simp only [filterE] at h
    cases h
    simp at hx
  | cons a as ih =>
    intro k h x hx
    simp only [filterE] at h
    cases hpa : p a with
    | error e => rw [hpa] at h; cases h
    | ok b =>
      rw [hpa] at h
      cases hrest : filterE p as with
      | error e => rw [hrest] at h; cases h
      | ok rest =>
        rw [hrest] at h
        cases h
        cases b with
        | true =>
          simp only [if_pos rfl] at hx
          rcases List.mem_cons.mp hx with h | h
          · exact h ▸ List.mem_cons_self a as
          · exact List.mem_cons_of_mem a (ih hrest x h)
        | false =>
          simp only [Bool.false_eq_true, if_neg] at hx
          exact List.mem_cons_of_mem a (ih hrest x hx)

lemma filterE_mem_true {p : α → Except ε Bool} :
    ∀ {l k : List α}, filterE p l = .ok k → ∀ {x}, x ∈ l → p x = .ok true → x ∈ k := by
  intro l
  induction l with
  | nil => intro k h x hx; simp at hx
  | cons a as ih =>
    intro k h x hx hpx
    simp only [filterE] at h
    cases hpa : p a with
    | error e => rw [hpa] at h; cases h
    | ok b =>
      rw [hpa] at h
      cases hrest : filterE p as with
      | error e => rw [hrest] at h; cases h
      | ok rest =>
        rw [hrest] at h
        cases h
        rcases List.mem_cons.mp hx with heq | hmem
        · subst heq
          rw [hpx] at hpa
          cases hpa
          simp
        · have := ih hrest hmem hpx
          cases b <;> simp [this]

lemma filterE_remove_false {p : α → Except ε Bool} {x : α} (hx : p x = .ok false) :
    ∀ (l₁ l₂ : List α), filterE p (l₁ ++ x :: l₂) = filterE p (l₁ ++ l₂) := by
  intro l₁
  induction l₁ with
  | nil =>
    intro l₂
    simp only [List.nil_append, filterE, hx]
    cases filterE p l₂ <;> simp
  | cons a as ih =>
    intro l₂
    simp only [List.cons_append, filterE, List.append_eq, ih l₂]

lemma mapE_ok_mem {f : α → Except ε β} :
    ∀ {l : List α} {ys : List β}, mapE f l = .ok ys → ∀ {y}, y ∈ ys → ∃ x ∈ l, f x = .ok y := by
  intro l
  induction l with
  | nil =>
    intro ys h y hy
    simp only [mapE] at h
    cases h
    simp at hy
  | cons a as ih =>
    intro ys h y hy
    simp only [mapE] at h
    cases hfa : f a with
    | error e => rw [hfa] at h; cases h
    | ok b =>
      rw [hfa] at h
      cases hrest : mapE f as with
      | error e => rw [hrest] at h; cases h
      | ok bs =>
        rw [hrest] at h
        cases h
        rcases List.mem_cons.mp hy with heq | hmem
        · exact ⟨a, List.mem_cons_self a as, heq ▸ hfa⟩
        · obtain ⟨x, hxl, hxy⟩ := ih hrest hmem
          exact ⟨x, List.mem_cons_of_mem a hxl, hxy⟩

lemma mapE_mem_error {f : α → Except ε β} :
    ∀ {l : List α} {x : α} {e : ε}, x ∈ l → f x = .error e →
      ∃ err, mapE f l = .error err := by
  intro l
  induction l with
  | nil => intro x e hx; simp at hx
  | cons a as ih =>
    intro x e hx hfx
    rcases List.mem_cons.mp hx with heq | hmem
    · subst heq
      exact ⟨e, by simp [mapE, hfx]⟩
    · cases hfa : f a with
      | error e' => exact ⟨e', by simp [mapE, hfa]⟩
      | ok b =>
        obtain ⟨err, herr⟩ := ih hmem hfx
        exact ⟨err, by simp [mapE, hfa, herr]⟩

/-! Permutation lemmas: the effectful filter and map send permuted inputs to
permuted outputs (when no error is raised), and marking events commutes. -/

lemma filterE_perm {p : α → Except ε Bool} :
    ∀ {l₁ l₂ : List α}, l₁.Perm l₂ → ∀ {k₁ : List α}, filterE p l₁ = .ok k₁ →
      ∃ k₂, filterE p l₂ = .ok k₂ ∧ k₁.Perm k₂ := by
  intro l₁ l₂ hperm
  induction hperm with
  | nil =>
    intro k₁ h
    exact ⟨k₁, h, List.Perm.refl k₁⟩
  | cons x hp ih =>
    rename_i t₁ t₂
    intro k₁ h
    simp only [filterE] at h
    cases hpx : p x with
    | error e => rw [hpx] at h; cases h
    | ok b =>
      rw [hpx] at h
      cases hft : filterE p t₁ with
      | error e => rw [hft] at h; cases h
      | ok rest =>
        rw [hft] at h
        cases h
        obtain ⟨rest₂, hf₂, hpr⟩ := ih hft
        refine ⟨if b then x :: rest₂ else rest₂, by simp [filterE, hpx, hf₂], ?_⟩
        cases b with
        | true => simpa using List.Perm.cons x hpr
        | false => simpa using hpr
  | swap x y l =>
    intro k₁ h
    simp only [filterE] at h
    cases hpy : p y with
    | error e => rw [hpy] at h; cases h
    | ok by' =>
      rw [hpy] at h
      cases hpx : p x with
      | error e => rw [hpx] at h; cases h
      | ok bx =>
        rw [hpx] at h
        cases hfl : filterE p l with
        | error e => rw [hfl] at h; cases h
        | ok rest =>
          rw [hfl] at h
          cases h
          refine ⟨if bx then x :: (if by' then y :: rest else rest)
            else (if by' then y :: rest else rest), by simp [filterE, hpx, hpy, hfl], ?_⟩
          cases bx <;> cases by' <;> simp
          exact List.Perm.swap x y rest
  | trans h₁ h₂ ih₁ ih₂ =>
    intro k₁ h
    obtain ⟨k₂, hk₂, hp₂⟩ := ih₁ h
    obtain ⟨k₃, hk₃, hp₃⟩ := ih₂ hk₂
    exact ⟨k₃, hk₃, hp₂.trans hp₃⟩

lemma mapE_perm {f : α → Except ε β} :
    ∀ {l₁ l₂ : List α}, l₁.Perm l₂ → ∀ {ys₁ : List β}, mapE f l₁ = .ok ys₁ →
      ∃ ys₂, mapE f l₂ = .ok ys₂ ∧ ys₁.Perm ys₂ := by
  intro l₁ l₂ hperm
  induction hperm with
  | nil =>
    intro ys₁ h
    exact ⟨ys₁, h, List.Perm.refl ys₁⟩
  | cons x hp ih =>
    rename_i t₁ t₂
    intro ys₁ h
    simp only [mapE] at h
    cases hfx : f x with
    | error e => rw [hfx] at h; cases h
    | ok y =>
      rw [hfx] at h
      cases hmt : mapE f t₁ with
      | error e => rw [hmt] at h; cases h
      | ok ys =>
        rw [hmt] at h
        cases h
        obtain ⟨ys₂, hm₂, hpr⟩ := ih hmt
        exact ⟨y :: ys₂, by simp [mapE, hfx, hm₂], List.Perm.cons y hpr⟩
  | swap x y l =>
    intro ys₁ h
    simp only [mapE] at h
    cases hfy : f y with
    | error e => rw [hfy] at h; cases h
    | ok fy =>
      rw [hfy] at h
      cases hfx : f x with
      | error e => rw [hfx] at h; cases h
      | ok fx =>
        rw [hfx] at h
        cases hml : mapE f l with
        | error e => rw [hml] at h; cases h
        | ok ys =>
          rw [hml] at h
          cases h
          exact ⟨fx :: fy :: ys, by simp [mapE, hfx, hfy, hml], List.Perm.swap fx fy ys⟩
  | trans h₁ h₂ ih₁ ih₂ =>
    intro ys₁ h
    obtain ⟨ys₂, hk₂, hp₂⟩ := ih₁ h
    obtain ⟨ys₃, hk₃, hp₃⟩ := ih₂ hk₂
    exact ⟨ys₃, hk₃, hp₂.trans hp₃⟩

lemma markCell_comm (a b : OHSession) (i : Nat) (c : Char) :
    markCell b i (markCell a i c) = markCell a i (markCell b i c) := by
  unfold markCell
  by_cases h1 : timestamp_to_half_hour_idx a.start ≤ i ∧ i < timestamp_to_half_hour_idx a.«end» <;>
    by_cases h2 : timestamp_to_half_hour_idx b.start ≤ i ∧ i < timestamp_to_half_hour_idx b.«end» <;>
      simp [h1, h2]

lemma markCell_idem (a : OHSession) (i : Nat) (c : Char) :
    markCell a i (markCell a i c) = markCell a i c := by
  unfold markCell
  by_cases h : timestamp_to_half_hour_idx a.start ≤ i ∧ i < timestamp_to_half_hour_idx a.«end» <;>
    simp [h]

lemma applyEvent_comm (s : List (List Char)) (a b : OHSession) :
    applyEvent (applyEvent s a) b = applyEvent (applyEvent s b) a := by
  unfold applyEvent
  rw [mapIdxGo_comp, mapIdxGo_comp]
  apply mapIdxGo_congr
  intro d row
  by_cases hda : d = dayIdx a
  · by_cases hdb : d = dayIdx b
    · simp only [if_pos hda, if_pos hdb]
      rw [mapIdxGo_comp, mapIdxGo_comp]
      exact mapIdxGo_congr (markCell_comm a b) row 0
    · simp only [if_pos hda, if_neg hdb]
  · by_cases hdb : d = dayIdx b
    · simp only [if_neg hda, if_pos hdb]
    · simp only [if_neg hda, if_neg hdb]

lemma applyEvent_idem (s : List (List Char)) (a : OHSession) :
    applyEvent (applyEvent s a) a = applyEvent s a := by
  unfold applyEvent
  rw [mapIdxGo_comp]
  apply mapIdxGo_congr
  intro d row
  by_cases hda : d = dayIdx a
  · simp only [if_pos hda]
    rw [mapIdxGo_comp]
    exact mapIdxGo_congr (markCell_idem a) row 0
  · simp only [if_neg hda]

lemma foldl_applyEvent_perm {l₁ l₂ : List OHSession} (h : l₁.Perm l₂) :
    ∀ s, List.foldl applyEvent s l₁ = List.foldl applyEvent s l₂ := by
  induction h with
  | nil => intro s; rfl
  | cons x hp ih => intro s; simp only [List.foldl_cons]; exact ih _
  | swap x y l => intro s; simp only [List.foldl_cons]; rw [applyEvent_comm]
  | trans h₁ h₂ ih₁ ih₂ => intro s; rw [ih₁ s, ih₂ s]

/-! Range facts about parsed timestamps and the sessions built from them. -/

lemma mkValidDatetime_bounds {y mo d h mi ss : Nat} {off : Int} {dt : PyDatetime}
    (hmk : mkValidDatetime y mo d h mi ss off = some dt) :
    dt.hour ≤ 23 ∧ dt.minute ≤ 59 := by
  unfold mkValidDatetime at hmk
  split at hmk
  · rename_i hc
    cases hmk
    obtain ⟨-, -, -, -, -, -, h1, h2, -⟩ := hc
    exact ⟨h1, h2⟩
  · cases hmk

lemma strptimeISO_bounds {s : String} {dt : PyDatetime} (h : strptimeISO s = some dt) :
    dt.hour ≤ 23 ∧ dt.minute ≤ 59 := by
  unfold strptimeISO at h
  repeat' split at h
  all_goals first
    | exact absurd h (by simp)
    | exact mkValidDatetime_bounds h

lemma parseEvent_bounds {x : RawEvent} {ev : OHSession} (h : parseEvent x = .ok ev) :
    ev.start.hour ≤ 23 ∧ ev.start.minute ≤ 59
      ∧ ev.«end».hour ≤ 23 ∧ ev.«end».minute ≤ 59 := by
  unfold parseEvent at h
  repeat' split at h
  all_goals cases h
  rename_i x4 sm hsm x3 sdt hsdt x2 sd hsd x1 edt hedt x0 ed hed
  exact ⟨(strptimeISO_bounds hsd).1, (strptimeISO_bounds hsd).2,
    (strptimeISO_bounds hed).1, (strptimeISO_bounds hed).2⟩

lemma ohSessions_mem {items : List RawEvent} {evs : List OHSession}
    (hs : ohSessions items = .ok evs) {ev : OHSession} (hev : ev ∈ evs) :
    ∃ x ∈ items, parseEvent x = .ok ev := by
  unfold ohSessions at hs
  cases hf : filterE keepEvent items with
  | error e => rw [hf] at hs; cases hs
  | ok kept =>
    rw [hf] at hs
    obtain ⟨x, hxk, hx⟩ := mapE_ok_mem hs hev
    exact ⟨x, filterE_sub hf x hxk, hx⟩

lemma ohSessions_idx_bounds {items : List RawEvent} {evs : List OHSession}
    (hs : ohSessions items = .ok evs) {ev : OHSession} (hev : ev ∈ evs) :
    timestamp_to_half_hour_idx ev.start ≤ 47
      ∧ timestamp_to_half_hour_idx ev.«end» ≤ 47 ∧ dayIdx ev < 7 := by
  obtain ⟨x, -, hx⟩ := ohSessions_mem hs hev
  obtain ⟨h1, h2, h3, h4⟩ := parseEvent_bounds hx
  refine ⟨?_, ?_, Nat.mod_lt _ (by norm_num)⟩
  · unfold timestamp_to_half_hour_idx; split <;> omega
  · unfold timestamp_to_half_hour_idx; split <;> omega

lemma form_schedule_ok_render {items : List RawEvent} {evs : List OHSession}
    (hs : ohSessions items = .ok evs) : form_schedule items = .ok (render evs) := by
  unfold form_schedule
  rw [hs]

lemma form_schedule_out_eq {items : List RawEvent} {evs : List OHSession} {out : List String}
    (hs : ohSessions items = .ok evs) (hout : form_schedule items = .ok out) :
    out = render evs := by
  rw [form_schedule_ok_render hs] at hout
  cases hout
  rfl

/-! The claims. -/

/-- Claim C5: for the single input event with summary "CS101 Office Hours",
status "confirmed", start 2024-01-07T14:00:00+00:00 and end
2024-01-07T15:30:00+00:00 (a Sunday), the builder returns a schedule whose
day 0 has slots 28, 29 and 30 equal to 'o' and every other slot of every
day equal to 'c'. -/
theorem form_schedule_concrete_sunday : form_schedule [cs101Raw] = .ok cs101Out := rfl

/-- Claim C7: whenever the filter retains no event (in particular for the
empty input list), `form_schedule` returns exactly 7 strings of 48 'c'
characters. -/
theorem form_schedule_no_qualifying_all_closed
    (items : List RawEvent) (h : filterE keepEvent items = .ok []) :
    form_schedule items = .ok (List.replicate 7 (String.mk (List.replicate 48 'c'))) := by
  unfold form_schedule ohSessions
  rw [h]
  rfl

/-- Witness for C7 at the empty input list. -/
theorem form_schedule_no_qualifying_all_closed_witness :
    form_schedule [] = .ok (List.replicate 7 (String.mk (List.replicate 48 'c'))) :=
  form_schedule_no_qualifying_all_closed [] rfl

/-- Claim C1: for every retained event, the builder computes the start slot
index as `start.hour*2` plus 0 if `start.minute < 30` else 1, the end
index identically from the end timestamp, and sets the slots of the start
index (inclusive) up to the end index (exclusive) of the event's day to
'o'; when the end index is at most the start index no slot is set and no
error is raised (marking is the identity on the grid). -/
theorem form_schedule_marks_retained_ranges
    (items : List RawEvent) (evs : List OHSession) (out : List String) (ev : OHSession)
    (hs : ohSessions items = .ok evs) (hout : form_schedule items = .ok out)
    (hev : ev ∈ evs) :
    timestamp_to_half_hour_idx ev.start
        = ev.start.hour * 2 + (if ev.start.minute < 30 then 0 else 1)
    ∧ timestamp_to_half_hour_idx ev.«end»
        = ev.«end».hour * 2 + (if ev.«end».minute < 30 then 0 else 1)
    ∧ (∀ i, timestamp_to_half_hour_idx ev.start ≤ i →
        i < timestamp_to_half_hour_idx ev.«end» → outChar out (dayIdx ev) i = 'o')
    ∧ (timestamp_to_half_hour_idx ev.«end» ≤ timestamp_to_half_hour_idx ev.start →
        ∀ sched, applyEvent sched ev = sched) := by
  obtain ⟨hb1, hb2, hb3⟩ := ohSessions_idx_bounds hs hev
  refine ⟨rfl, rfl, ?_, ?_⟩
  · intro i h1 h2
    have hi : i < 48 := by omega
    rw [form_schedule_out_eq hs hout, outChar_render evs hb3 hi,
      if_pos ⟨ev, hev, rfl, h1, h2⟩]
  · intro hle sched
    unfold applyEvent
    apply mapIdxGo_id
    intro d row
    by_cases hd : d = dayIdx ev
    · rw [if_pos hd]
      apply mapIdxGo_id
      intro i c
      unfold markCell
      rw [if_neg (by omega)]
    · rw [if_neg hd]

/-- Witness for C1 at the concrete Sunday event: slot 28 of its day is
open. -/
theorem form_schedule_marks_retained_ranges_witness :
    outChar cs101Out (dayIdx cs101Session) 28 = 'o' :=
  (form_schedule_marks_retained_ranges [cs101Raw] [cs101Session] cs101Out cs101Session
      rfl rfl (List.mem_singleton_self cs101Session)).2.2.1 28 (by decide) (by decide)

lemma applyEvent_chars {s : List (List Char)}
    (hc : ∀ row ∈ s, ∀ c ∈ row, c = 'o' ∨ c = 'c') (ev : OHSession) :
    ∀ row ∈ applyEvent s ev, ∀ c ∈ row, c = 'o' ∨ c = 'c' := by
  intro row' hrow' c hcmem
  obtain ⟨i, row, hrow, hb⟩ := mem_mapIdxGo hrow'
  subst hb
  by_cases hd : i = dayIdx ev
  · rw [if_pos hd] at hcmem
    obtain ⟨j, c₀, hc₀, hcc⟩ := mem_mapIdxGo hcmem
    subst hcc
    unfold markCell
    by_cases hm : timestamp_to_half_hour_idx ev.start ≤ j
        ∧ j < timestamp_to_half_hour_idx ev.«end»
    · rw [if_pos hm]; exact Or.inl rfl
    · rw [if_neg hm]; exact hc row hrow c₀ hc₀
  · rw [if_neg hd] at hcmem
    exact hc row hrow c hcmem

lemma foldl_applyEvent_chars :
    ∀ (evs : List OHSession) {s : List (List Char)},
      (∀ row ∈ s, ∀ c ∈ row, c = 'o' ∨ c = 'c') →
      ∀ row ∈ List.foldl applyEvent s evs, ∀ c ∈ row, c = 'o' ∨ c = 'c' := by
  intro evs
  induction evs with
  | nil => intro s hc; exact hc
  | cons e es ih => intro s hc; exact ih (applyEvent_chars hc e)

lemma initSchedule_chars : ∀ row ∈ initSchedule, ∀ c ∈ row, c = 'o' ∨ c = 'c' := by
  intro row hrow c hcc
  rw [List.eq_of_mem_replicate hrow] at hcc
  exact Or.inr (List.eq_of_mem_replicate hcc)

/-- Claim C2: whenever `form_schedule` returns a result, it is exactly 7
strings, each of exactly 48 characters, and every character is 'o' or
'c'. -/
theorem form_schedule_output_shape
    (items : List RawEvent) (out : List String) (h : form_schedule items = .ok out) :
    out.length = 7 ∧ ∀ s ∈ out, s.length = 48 ∧ ∀ c ∈ s.data, c = 'o' ∨ c = 'c' := by
  unfold form_schedule at h
  cases hs : ohSessions items with
  | error e => rw [hs] at h; cases h
  | ok evs =>
    rw [hs] at h
    cases h
    have hshape := foldl_applyEvent_shape evs initSchedule_shape
    have hchars := foldl_applyEvent_chars evs initSchedule_chars
    constructor
    · simp [render, hshape.1]
    · intro s hsmem
      obtain ⟨row, hrow, hf⟩ := List.mem_map.mp hsmem
      subst hf
      refine ⟨?_, ?_⟩
      · have := hshape.2 row hrow
        simpa [String.length] using this
      · intro c hcd
        exact hchars row hrow c hcd

/-- Witness for C2 at the empty input list. -/
theorem form_schedule_output_shape_witness :
    closedWeek.length = 7 ∧ ∀ s ∈ closedWeek, s.length = 48
      ∧ ∀ c ∈ s.data, c = 'o' ∨ c = 'c' :=
  form_schedule_output_shape [] closedWeek rfl

/-- Claim C3: an event with a present status is retained if and only if its
status is not "cancelled" and its summary contains the literal,
case-sensitive substring "Office Hours"; a cancelled event, or one whose
summary lacks the marker, leaves the output unchanged. -/
theorem form_schedule_filter_iff
    (x : RawEvent) (st : String) (hst : x.status = some st) :
    (keepEvent x = .ok true
        ↔ st ≠ "cancelled" ∧ ∃ sm, x.summary = some sm
            ∧ containsSub officeHours.data sm.data = true)
    ∧ ((st = "cancelled"
          ∨ ∃ sm, x.summary = some sm ∧ containsSub officeHours.data sm.data = false) →
        ∀ l₁ l₂, form_schedule (l₁ ++ x :: l₂) = form_schedule (l₁ ++ l₂)) := by
  constructor
  · unfold keepEvent
    rw [hst]
    dsimp only
    by_cases hc : st = "cancelled"
    · rw [if_pos hc]
      simp [hc]
    · rw [if_neg hc]
      cases hsum : x.summary with
      | none => simp [hc]
      | some sm => simp [hc]
  · intro hdisj l₁ l₂
    have hfalse : keepEvent x = .ok false := by
      unfold keepEvent
      rw [hst]
      dsimp only
      rcases hdisj with hc | ⟨sm, hsm, hcs⟩
      · rw [if_pos hc]
      · by_cases hc : st = "cancelled"
        · rw [if_pos hc]
        · rw [if_neg hc, hsm]
          dsimp only
          rw [hcs]
    unfold form_schedule ohSessions
    rw [filterE_remove_false hfalse l₁ l₂]

/-- Witness for C3: removing the cancelled twin of the concrete event
leaves the schedule unchanged. -/
theorem form_schedule_filter_iff_witness :
    form_schedule [cancelledRaw] = form_schedule [] :=
  (form_schedule_filter_iff cancelledRaw "cancelled" rfl).2 (Or.inl rfl) [] []

/-- Claim C4: every retained event is written at output day index
`(weekday(start) + 1) % 7` with the Monday=0 convention, so a Monday event
lands at index 1 and a Sunday event at index 0; its covered slots show 'o'
in that output row. -/
theorem form_schedule_day_remap
    (items : List RawEvent) (evs : List OHSession) (out : List String) (ev : OHSession)
    (hs : ohSessions items = .ok evs) (hout : form_schedule items = .ok out)
    (hev : ev ∈ evs) :
    dayIdx ev = (pyWeekday ev.start + 1) % 7
    ∧ (pyWeekday ev.start = 0 → dayIdx ev = 1)
    ∧ (pyWeekday ev.start = 6 → dayIdx ev = 0)
    ∧ ∀ i, timestamp_to_half_hour_idx ev.start ≤ i →
        i < timestamp_to_half_hour_idx ev.«end» →
        outChar out ((pyWeekday ev.start + 1) % 7) i = 'o' := by
  obtain ⟨hb1, hb2, hb3⟩ := ohSessions_idx_bounds hs hev
  refine ⟨rfl, ?_, ?_, ?_⟩
  · intro h; unfold dayIdx; rw [h]
  · intro h; unfold dayIdx; rw [h]
  · intro i h1 h2
    have hi : i < 48 := by omega
    have hday : (pyWeekday ev.start + 1) % 7 = dayIdx ev := rfl
    rw [hday, form_schedule_out_eq hs hout, outChar_render evs hb3 hi,
      if_pos ⟨ev, hev, rfl, h1, h2⟩]

/-- Witness for C4 at the concrete Sunday event: its weekday is 6 and it is
written at output day index 0. -/
theorem form_schedule_day_remap_witness :
    dayIdx cs101Session = (pyWeekday cs101Session.start + 1) % 7
    ∧ dayIdx cs101Session = 0 :=
  ⟨(form_schedule_day_remap [cs101Raw] [cs101Session] cs101Out cs101Session rfl rfl
      (List.mem_singleton_self cs101Session)).1,
   (form_schedule_day_remap [cs101Raw] [cs101Session] cs101Out cs101Session rfl rfl
      (List.mem_singleton_self cs101Session)).2.2.1 (by decide)⟩

/-- Claim C6: processing order does not matter — a permutation of an input
list that produces a schedule produces the very same schedule — and
duplicating an event leaves `form_schedule` unchanged (idempotent,
commutative union of marked slots). -/
theorem form_schedule_perm_invariant :
    (∀ (l₁ l₂ : List RawEvent) (out : List String), l₁.Perm l₂ →
        form_schedule l₁ = .ok out → form_schedule l₂ = .ok out)
    ∧ ∀ (x : RawEvent) (l : List RawEvent),
        form_schedule (x :: x :: l) = form_schedule (x :: l) := by
  constructor
  · intro l₁ l₂ out hperm hok
    unfold form_schedule at hok ⊢
    cases hs : ohSessions l₁ with
    | error e => rw [hs] at hok; cases hok
    | ok evs =>
      rw [hs] at hok
      cases hok
      unfold ohSessions at hs ⊢
      cases hf : filterE keepEvent l₁ with
      | error e => rw [hf] at hs; cases hs
      | ok k₁ =>
        rw [hf] at hs
        obtain ⟨k₂, hf₂, hpk⟩ := filterE_perm hperm hf
        obtain ⟨evs₂, hm₂, hpe⟩ := mapE_perm hpk hs
        rw [hf₂]
        dsimp only
        rw [hm₂]
        dsimp only
        have hrender : render evs₂ = render evs := by
          unfold render
          rw [foldl_applyEvent_perm hpe.symm initSchedule]
        rw [hrender]
  · intro x l
    unfold form_schedule ohSessions
    cases hk : keepEvent x with
    | error e =>
      have h1 : filterE keepEvent (x :: x :: l) = .error e := by
        simp [filterE, hk]
      have h2 : filterE keepEvent (x :: l) = .error e := by
        simp [filterE, hk]
      rw [h1, h2]
    | ok b =>
      cases hfl : filterE keepEvent l with
      | error e =>
        have h1 : filterE keepEvent (x :: x :: l) = .error e := by
          simp [filterE, hk, hfl]
        have h2 : filterE keepEvent (x :: l) = .error e := by
          simp [filterE, hk, hfl]
        rw [h1, h2]
      | ok rest =>
        cases b with
        | false =>
          have h1 : filterE keepEvent (x :: x :: l) = .ok rest := by
            simp [filterE, hk, hfl]
          have h2 : filterE keepEvent (x :: l) = .ok rest := by
            simp [filterE, hk, hfl]
          rw [h1, h2]
        | true =>
          have h1 : filterE keepEvent (x :: x :: l) = .ok (x :: x :: rest) := by
            simp [filterE, hk, hfl]
          have h2 : filterE keepEvent (x :: l) = .ok (x :: rest) := by
            simp [filterE, hk, hfl]
          rw [h1, h2]
          dsimp only
          cases hp : parseEvent x with
          | error e =>
            have h3 : mapE parseEvent (x :: x :: rest) = .error e := by
              simp [mapE, hp]
            have h4 : mapE parseEvent (x :: rest) = .error e := by
              simp [mapE, hp]
            rw [h3, h4]
          | ok ev =>
            cases hm : mapE parseEvent rest with
            | error e =>
              have h3 : mapE parseEvent (x :: x :: rest) = .error e := by
                simp [mapE, hp, hm]
              have h4 : mapE parseEvent (x :: rest) = .error e := by
                simp [mapE, hp, hm]
              rw [h3, h4]
            | ok evs =>
              have h3 : mapE parseEvent (x :: x :: rest) = .ok (ev :: ev :: evs) := by
                simp [mapE, hp, hm]
              have h4 : mapE parseEvent (x :: rest) = .ok (ev :: evs) := by
                simp [mapE, hp, hm]
              rw [h3, h4]
              dsimp only
              have hrender : render (ev :: ev :: evs) = render (ev :: evs) := by
                unfold render
                simp only [List.foldl_cons]
                rw [applyEvent_idem]
              rw [hrender]

/-- Witness for C6: swapping the two concrete qualifying events yields the
same schedule. -/
theorem form_schedule_perm_invariant_witness :
    form_schedule [eecsRaw, cs101Raw] = .ok twoOut :=
  (form_schedule_perm_invariant).1 [cs101Raw, eecsRaw] [eecsRaw, cs101Raw] twoOut
    (List.Perm.swap eecsRaw cs101Raw []) rfl

/-- Claim C8: if any retained (qualifying) event fails to parse — a
malformed `start`/`end` timestamp or a missing required key — then
`form_schedule` propagates an error to the caller and never returns a
schedule (no partial output). -/
theorem form_schedule_parse_error_propagates
    (items : List RawEvent) (x : RawEvent) (e : PyError)
    (hx : x ∈ items) (hkeep : keepEvent x = .ok true) (hparse : parseEvent x = .error e) :
    (∃ err, form_schedule items = .error err) ∧ ∀ out, form_schedule items ≠ .ok out := by
  have hmain : ∃ err, form_schedule items = .error err := by
    unfold form_schedule ohSessions
    cases hf : filterE keepEvent items with
    | error e' => exact ⟨e', rfl⟩
    | ok kept =>
      have hxk : x ∈ kept := filterE_mem_true hf hx hkeep
      obtain ⟨err, herr⟩ := mapE_mem_error hxk hparse
      dsimp only
      rw [herr]
      exact ⟨err, rfl⟩
  refine ⟨hmain, ?_⟩
  intro out hout
  obtain ⟨err, herr⟩ := hmain
  rw [hout] at herr
  cases herr

/-- Witness for C8: a qualifying event whose timestamps are the unparsable
string "garbage". -/
theorem form_schedule_parse_error_propagates_witness :
    (∃ err, form_schedule [badRaw] = .error err)
    ∧ ∀ out, form_schedule [badRaw] ≠ .ok out :=
  form_schedule_parse_error_propagates [badRaw] badRaw (.valueError "garbage")
    (List.mem_singleton_self badRaw) rfl rfl

/-- Claim C10: an event whose status is "cancelled" is discarded by the
filter without its summary being read (the conjunction short-circuits), so
even a cancelled event with no summary key is silently dropped instead of
raising a missing-key error, and removing it from the input leaves the
output unchanged. -/
theorem cancelled_event_short_circuits
    (x : RawEvent) (hst : x.status = some "cancelled") :
    keepEvent x = .ok false
    ∧ ∀ l₁ l₂, form_schedule (l₁ ++ x :: l₂) = form_schedule (l₁ ++ l₂) := by
  have hk : keepEvent x = .ok false := by
    unfold keepEvent
    rw [hst]
    dsimp only
    rw [if_pos rfl]
  refine ⟨hk, ?_⟩
  intro l₁ l₂
  unfold form_schedule ohSessions
  rw [filterE_remove_false hk l₁ l₂]

/-- Witness for C10: a cancelled event with no summary key at all is
filtered out without error. -/
theorem cancelled_event_short_circuits_witness :
    keepEvent cancelledNoSummary = .ok false
    ∧ form_schedule [cancelledNoSummary] = form_schedule [] :=
  ⟨(cancelled_event_short_circuits cancelledNoSummary rfl).1,
   (cancelled_event_short_circuits cancelledNoSummary rfl).2 [] []⟩

/-- Claim C9 (refuted by the code of `get_auth`): the claim says the
credential is resolved by probing the working directory and then every
ancestor up to the home directory.  `get_api_session` does exactly that and
finds a file stored in the home directory, but `get_auth` — which rebinds
`filename` to the already-joined absolute path inside its loop, so that
`os.path.join` discards every later directory — misses the very same file
and raises `AuthFileNotFound`, contradicting its own docstring.  With the
file in the working directory itself, `get_auth` does find it. -/
theorem get_auth_misses_ancestor_files :
    get_api_session demoFsAncestor ["home", "user"] ["project"] ".gcalkey"
        = some "top-secret-key"
    ∧ get_auth demoFsAncestor ["home", "user"] ["project"] ".gcalkey" = none
    ∧ get_auth demoFsCwd ["home", "user"] ["project"] ".gcalkey" = some "cwd-key" :=
  ⟨rfl, rfl, rfl⟩
